import Mathlib

/-!
Verification of the `policy` package (IAM policy document builder/serializer).

The package builds IAM policy documents and round-trips them through JSON
via Go's `encoding/json`.  The embedding below models:

* the JSON value tree (`Json`) together with a renderer faithful to
  `encoding/json`'s compact output (lowercase-hex escaping, HTML escaping of
  `<`, `>`, `&`, map keys emitted in sorted byte order) and a fuel-indexed
  parser inverting the renderer;
* the Go data types `PolicyVersion`, `Effect`, `Principal`, `Statement`,
  `Policy` with `nil`-ness of pointers, slices and maps modelled by `Option`
  (Go distinguishes nil from empty for pointers, for non-`omitempty` slices,
  and for map writes);
* the builder operations (`NewPolicy`, `AddStatement`, the `Statement`
  mutators) and the serialization pair (`Policy.Get` / `LoadPolicy`).

Go maps are unordered; the embedding represents a Go map as its canonical
key-sorted association list (every map store goes through `sinsert`, which
keeps the list strictly sorted by key).  `encoding/json` marshals map keys
in sorted byte order, which on the canonical representation is emission in
list order; on UTF-8 strings byte order coincides with code-point order,
which is the `String` order used here.
-/

namespace Goiam

/-! ## JSON values, rendering (encoding/json-compatible), parsing -/

/-- Left brace character, kept as a code point. -/
def lbrace : Char := Char.ofNat 123

/-- Right brace character, kept as a code point. -/
def rbrace : Char := Char.ofNat 125

/-- Lowercase hexadecimal digit, as emitted by Go's JSON escaper. -/
def hexDigitChar (n : Nat) : Char :=
  if n < 10 then Char.ofNat (48 + n) else Char.ofNat (87 + n)

/-- Value of a hexadecimal digit character, accepting both cases. -/
def hexVal (c : Char) : Option Nat :=
  if 48 ≤ c.toNat ∧ c.toNat ≤ 57 then some (c.toNat - 48)
  else if 97 ≤ c.toNat ∧ c.toNat ≤ 102 then some (c.toNat - 87)
  else if 65 ≤ c.toNat ∧ c.toNat ≤ 70 then some (c.toNat - 55)
  else none

/-- Escape one character the way Go's `encoding/json` string encoder does
(with its default HTML escaping of `<`, `>`, `&`, and escaping of
U+2028/U+2029). -/
def escChar (c : Char) : List Char :=
  if c = '"' then ['\\', '"']
  else if c = '\\' then ['\\', '\\']
  else if c = '\n' then ['\\', 'n']
  else if c = '\r' then ['\\', 'r']
  else if c = '\t' then ['\\', 't']
  else if c.toNat < 32 ∨ c = '<' ∨ c = '>' ∨ c = '&' then
    ['\\', 'u', '0', '0', hexDigitChar (c.toNat / 16), hexDigitChar (c.toNat % 16)]
  else if c.toNat = 0x2028 ∨ c.toNat = 0x2029 then
    ['\\', 'u', '2', '0', '2', hexDigitChar (c.toNat % 16)]
  else [c]

/-- Escaped character data of a JSON string body. -/
def escData (s : List Char) : List Char := s.flatMap escChar

/-- JSON values as produced and consumed by this package: the policy wire
format only ever contains strings, arrays, objects and null.  Object fields
keep their textual order. -/
inductive Json where
  | null : Json
  | str : String → Json
  | arr : List Json → Json
  | obj : List (String × Json) → Json

mutual

/-- Compact rendering of a JSON value, as `json.Marshal` emits it. -/
def Json.renderData : Json → List Char
  | .null => ['n', 'u', 'l', 'l']
  | .str s => '"' :: escData s.data ++ ['"']
  | .arr xs => '[' :: Json.renderItems xs ++ [']']
  | .obj fs => lbrace :: Json.renderFields fs ++ [rbrace]

/-- Comma-separated rendering of array items. -/
def Json.renderItems : List Json → List Char
  | [] => []
  | [x] => Json.renderData x
  | x :: y :: t => Json.renderData x ++ ',' :: Json.renderItems (y :: t)

/-- Comma-separated rendering of object fields. -/
def Json.renderFields : List (String × Json) → List Char
  | [] => []
  | [(k, v)] => '"' :: escData k.data ++ '"' :: ':' :: Json.renderData v
  | (k, v) :: f :: t =>
      '"' :: escData k.data ++ '"' :: ':' :: Json.renderData v ++ ',' :: Json.renderFields (f :: t)

end

/-- Rendering of a JSON value to a string. -/
def Json.render (j : Json) : String := ⟨j.renderData⟩

/-- Single-character JSON escapes understood by the parser. -/
def unescChar (c : Char) : Option Char :=
  if c = '"' then some '"'
  else if c = '\\' then some '\\'
  else if c = '/' then some '/'
  else if c = 'n' then some '\n'
  else if c = 'r' then some '\r'
  else if c = 't' then some '\t'
  else if c = 'b' then some (Char.ofNat 8)
  else if c = 'f' then some (Char.ofNat 12)
  else none

/-- Value of four hexadecimal digits. -/
def hex4 (c1 c2 c3 c4 : Char) : Option Nat := do
  let n1 ← hexVal c1
  let n2 ← hexVal c2
  let n3 ← hexVal c3
  let n4 ← hexVal c4
  some (n1 * 4096 + n2 * 256 + n3 * 16 + n4)

/-- Parse the body of a JSON string up to (and consuming) the closing quote,
returning the decoded characters and the remaining input. -/
def parseStrBody : List Char → Option (List Char × List Char)
  | [] => none
  | c :: rest =>
    if c = '"' then some ([], rest)
    else if c = '\\' then
      match rest with
      | [] => none
      | e :: rest2 =>
        if e = 'u' then
          match rest2 with
          | c1 :: c2 :: c3 :: c4 :: rest3 =>
            (hex4 c1 c2 c3 c4).bind fun n =>
              (parseStrBody rest3).map fun p => (Char.ofNat n :: p.1, p.2)
          | _ => none
        else
          (unescChar e).bind fun d =>
            (parseStrBody rest2).map fun p => (d :: p.1, p.2)
    else
      (parseStrBody rest).map fun p => (c :: p.1, p.2)

mutual

/-- Fuel-indexed parser for a JSON value, returning the value and the
remaining input.  Handles exactly the compact grammar `Json.render` emits
(no interstitial whitespace, no numbers or booleans: the policy wire format
never contains them). -/
def parseVal : Nat → List Char → Option (Json × List Char)
  | 0, _ => none
  | fuel + 1, s =>
    match s with
    | [] => none
    | c :: r =>
      if c = 'n' then
        match r with
        | u :: l1 :: l2 :: r2 =>
          if u = 'u' ∧ l1 = 'l' ∧ l2 = 'l' then some (.null, r2) else none
        | _ => none
      else if c = '"' then
        (parseStrBody r).map fun p => (.str ⟨p.1⟩, p.2)
      else if c = '[' then
        match r with
        | [] => none
        | c2 :: r2 =>
          if c2 = ']' then some (.arr [], r2)
          else (parseArrItems fuel (c2 :: r2)).map fun p => (.arr p.1, p.2)
      else if c = lbrace then
        match r with
        | [] => none
        | c2 :: r2 =>
          if c2 = rbrace then some (.obj [], r2)
          else (parseObjFields fuel (c2 :: r2)).map fun p => (.obj p.1, p.2)
      else none

/-- Parse one or more comma-separated array items up to (and consuming) the
closing bracket. -/
def parseArrItems : Nat → List Char → Option (List Json × List Char)
  | 0, _ => none
  | fuel + 1, s =>
    (parseVal fuel s).bind fun p =>
      match p.2 with
      | [] => none
      | c :: r =>
        if c = ',' then (parseArrItems fuel r).map fun q => (p.1 :: q.1, q.2)
        else if c = ']' then some ([p.1], r)
        else none

/-- Parse one or more comma-separated object fields up to (and consuming)
the closing brace. -/
def parseObjFields : Nat → List Char → Option (List (String × Json) × List Char)
  | 0, _ => none
  | fuel + 1, s =>
    match s with
    | [] => none
    | c :: r =>
      if c = '"' then
        (parseStrBody r).bind fun kp =>
          match kp.2 with
          | [] => none
          | c2 :: r2 =>
            if c2 = ':' then
              (parseVal fuel r2).bind fun vp =>
                match vp.2 with
                | [] => none
                | c3 :: r3 =>
                  if c3 = ',' then
                    (parseObjFields fuel r3).map fun q => ((⟨kp.1⟩, vp.1) :: q.1, q.2)
                  else if c3 = rbrace then some ([(⟨kp.1⟩, vp.1)], r3)
                  else none
            else none
      else none

end

/-- Parse a whole string as a JSON value (the fuel `s.length + 1` is enough
for any input whose parse consumes the input, see `weight_le_renderData`). -/
def parseJson (s : String) : Option Json :=
  match parseVal (s.length + 1) s.data with
  | some (j, []) => some j
  | _ => none

mutual

/-- Structural weight of a JSON value, used as a fuel bound for the parser. -/
def Json.weight : Json → Nat
  | .null => 1
  | .str _ => 1
  | .arr xs => Json.weightItems xs + 1
  | .obj fs => Json.weightFields fs + 1

/-- Weight of a list of array items. -/
def Json.weightItems : List Json → Nat
  | [] => 0
  | x :: t => Json.weight x + Json.weightItems t + 1

/-- Weight of a list of object fields. -/
def Json.weightFields : List (String × Json) → Nat
  | [] => 0
  | f :: t => Json.weight f.2 + Json.weightFields t + 1

end

/-- Rendering of the items after the first one (with their separators). -/
def itemsTail : List Json → List Char
  | [] => []
  | y :: ys => ',' :: Json.renderItems (y :: ys)

/-- Rendering of the fields after the first one (with their separators). -/
def fieldsTail : List (String × Json) → List Char
  | [] => []
  | f :: t => ',' :: Json.renderFields (f :: t)

/-! ## Association lists standing for Go maps

Go maps are unordered; a map value is represented by its canonical
key-sorted association list.  Every map store in the source goes through
`sinsert`, which keeps the representation strictly sorted, so list equality
of representations coincides with Go map equality, and `encoding/json`'s
sorted-key marshaling is emission in representation order. -/

/-- Lookup in an association list representing a Go map (a missing key reads
as `none`, Go's zero value). -/
def sfind {α : Type} (k : String) : List (String × α) → Option α
  | [] => none
  | (k', v) :: t => if k = k' then some v else sfind k t

/-- Store into the canonical association list: replaces the value at an
existing key, otherwise inserts the key in ascending key order. -/
def sinsert {α : Type} (k : String) (v : α) : List (String × α) → List (String × α)
  | [] => [(k, v)]
  | (k', v') :: t =>
    if k = k' then (k, v) :: t
    else if k < k' then (k, v) :: (k', v') :: t
    else (k', v') :: sinsert k v t

/-! ## The policy data model (from src/policy/policy.go) -/

/-- Error for an invalid policy document version; carries the raw offending
bytes (Go's `InvalidPolicyVersionError`). -/
abbrev InvalidPolicyVersionError := String

/-- Version returns the invalid version string used in the document. -/
def InvalidPolicyVersionError.version (e : InvalidPolicyVersionError) : String := e

/-- Error for an invalid effect literal; carries the raw offending bytes
(Go's `InvalidEffectError`). -/
abbrev InvalidEffectError := String

/-- PolicyVersion is an empty struct in the source: decoding validates but
stores nothing, so the legacy version is not recorded. -/
abbrev PolicyVersion := Unit

/-- MarshalJSON of a version: unconditionally the raw bytes of the current
version literal. -/
def PolicyVersion.marshalJSON (_ : PolicyVersion) : String := "\"2012-10-17\""

/-- UnmarshalJSON of a version: accepts exactly the current and the legacy
literal (raw bytes, quotes included), otherwise fails carrying the raw
bytes. -/
def PolicyVersion.unmarshalJSON (b : String) :
    Except InvalidPolicyVersionError PolicyVersion :=
  if b = "\"2012-10-17\"" ∨ b = "\"2008-10-17\"" then .ok () else .error b

/-- The Effect indicates whether the statement results in an allow or an
explicit deny; a Go bool. -/
abbrev Effect := Bool

def Allow : Effect := true

def Deny : Effect := false

/-- MarshalJSON of an effect. -/
def Effect.marshalJSON (e : Effect) : String :=
  if e then "\"Allow\"" else "\"Deny\""

/-- UnmarshalJSON of an effect: raw bytes comparison, any other literal
fails carrying the raw bytes. -/
def Effect.unmarshalJSON (b : String) : Except InvalidEffectError Effect :=
  if b = "\"Allow\"" then .ok true
  else if b = "\"Deny\"" then .ok false
  else .error b

/-- The person or persons who receive or are denied permission.  `aws =
none` models a nil `Aws` slice (a nil slice marshals to `null`, an
allocated one to an array). -/
structure Principal where
  aws : Option (List String)
deriving DecidableEq, Repr

/-- NewPrincipal allocates a principal with an empty (non-nil) list. -/
def NewPrincipal : Principal := ⟨some []⟩

/-- Inner level of a condition map: condition variable to list of values.
A value slice read back from JSON `null` is represented as `[]` (Go keeps a
nil slice there; no reachable statement distinguishes the two). -/
abbrev CondInner := List (String × List String)

/-- Outer level of a condition map: operator to inner map; `none` models a
nil inner map (Go can hold one after decoding a `null` inner object). -/
abbrev Cond := List (String × Option CondInner)

/-- The main element of a single Policy Statement.  `Option` marks Go nil:
nil `Sid` pointer, nil `Principal`/`NotPrincipal` pointers, nil `Action`
slice, nil `Condition` map.  `NotAction` has `omitempty` and is only ever
appended to, so nil and empty coincide observably and are both `[]`. -/
structure Statement where
  sid : Option String
  effect : Effect
  principal : Option Principal
  notPrincipal : Option Principal
  action : Option (List String)
  notAction : List String
  resource : String
  condition : Option Cond
deriving DecidableEq, Repr

/-- Set the Statement's Sid. -/
def Statement.setSid (i : String) (s : Statement) : Statement :=
  { s with sid := some i }

/-- Add an extra person to the Principal list.  `none` when the statement's
principal pointer is nil (Go would dereference a nil pointer). -/
def Statement.addPrincipal (p : String) (s : Statement) : Option Statement :=
  s.principal.map fun pr => { s with principal := some ⟨some (pr.aws.getD [] ++ [p])⟩ }

/-- Add an extra person to the NotPrincipal list, allocating it on first
use. -/
def Statement.addNotPrincipal (p : String) (s : Statement) : Statement :=
  let pr := s.notPrincipal.getD NewPrincipal
  { s with notPrincipal := some ⟨some (pr.aws.getD [] ++ [p])⟩ }

/-- Add an Action (append works on a nil slice in Go, hence total). -/
def Statement.addAction (a : String) (s : Statement) : Statement :=
  { s with action := some (s.action.getD [] ++ [a]) }

/-- Add a NotAction. -/
def Statement.addNotAction (a : String) (s : Statement) : Statement :=
  { s with notAction := s.notAction ++ [a] }

/-- Set the Effect (a plain field assignment in the source). -/
def Statement.setEffect (e : Effect) (s : Statement) : Statement :=
  { s with effect := e }

/-- Set the Resource (a plain field assignment in the source). -/
def Statement.setResource (r : String) (s : Statement) : Statement :=
  { s with resource := r }

/-- Add a Condition to the statement.  `none` exactly when Go panics with
an assignment to an entry in a nil map: when the statement's condition map
itself is nil, or when the operator key is present but holds a nil inner
map.  Otherwise the operator and variable levels are created on demand and
the value is appended. -/
def Statement.addCondition (t k v : String) (s : Statement) : Option Statement :=
  s.condition.bind fun m =>
    (match sfind t m with
     | none => some []
     | some none => none
     | some (some im) => some im).map fun im =>
      let vs := (sfind k im).getD []
      { s with condition := some (sinsert t (some (sinsert k (vs ++ [v]) im)) m) }

/-- Policy is a complete IAM Policy document.  `statement = none` models a
nil statements slice (possible after decoding). -/
structure Policy where
  id : Option String
  statement : Option (List Statement)
deriving DecidableEq, Repr

/-- Create a new empty Policy (allocated, empty statement slice). -/
def NewPolicy : Policy := ⟨none, some []⟩

/-- Set the Id of a policy. -/
def Policy.setId (i : String) (p : Policy) : Policy := { p with id := some i }

/-- The fresh statement value `AddStatement` appends: Deny effect,
allocated empty principal, allocated empty action slice, allocated empty
condition map. -/
def newStatement : Statement :=
  ⟨none, false, some NewPrincipal, none, some [], [], "", some []⟩

/-- Add a new (empty) Statement to the Policy (append works on a nil slice
in Go, hence total).  The source returns a pointer for further mutation;
mutation is modelled by the `Statement` operations applied in place. -/
def Policy.addStatement (p : Policy) : Policy :=
  { p with statement := some (p.statement.getD [] ++ [newStatement]) }

/-! ## Marshaling (struct tags of the source; encoding/json semantics) -/

/-- JSON form of a principal: the `AWS` field is always present (no
`omitempty`); a nil slice marshals to `null`. -/
def Principal.toJson (p : Principal) : Json :=
  .obj [("AWS", match p.aws with | none => .null | some l => .arr (l.map .str))]

/-- JSON form of an inner condition map (nil inner map marshals to
`null`; keys are emitted in sorted order, which is representation order). -/
def condInnerToJson : Option CondInner → Json
  | none => .null
  | some im => .obj (im.map fun kv => (kv.1, .arr (kv.2.map .str)))

/-- JSON form of a condition map. -/
def condToJson (m : Cond) : Json :=
  .obj (m.map fun kv => (kv.1, condInnerToJson kv.2))

/-- JSON form of a statement, with the source's field order and `omitempty`
tags: `Sid`, `NotPrincipal`, `NotAction`, `Condition` are omitted when nil
or empty; `Effect`, `Principal`, `Action`, `Resource` are always present. -/
def Statement.toJson (s : Statement) : Json :=
  .obj ((match s.sid with | none => [] | some v => [("Sid", .str v)])
    ++ [("Effect", .str (if s.effect then "Allow" else "Deny")),
        ("Principal", match s.principal with | none => .null | some pr => pr.toJson)]
    ++ (match s.notPrincipal with | none => [] | some pr => [("NotPrincipal", pr.toJson)])
    ++ [("Action", match s.action with | none => .null | some l => .arr (l.map .str))]
    ++ (match s.notAction with | [] => [] | l => [("NotAction", .arr (l.map .str))])
    ++ [("Resource", .str s.resource)]
    ++ (match s.condition with
        | none => []
        | some [] => []
        | some m => [("Condition", condToJson m)]))

/-- JSON form of a policy: fixed version literal, `Id` omitted when nil,
`Statement` always present (nil slice marshals to `null`). -/
def Policy.toJson (p : Policy) : Json :=
  .obj ([("Version", .str "2012-10-17")]
    ++ (match p.id with | none => [] | some i => [("Id", .str i)])
    ++ [("Statement", match p.statement with
         | none => .null
         | some l => .arr (l.map Statement.toJson))])

/-- Retrieve the policy as its JSON encoding, ready for AWS API calls
(Go's `Policy.Get`; the error result is always nil for these types, so the
model returns the bytes directly). -/
def Policy.get (p : Policy) : String := (Policy.toJson p).render

/-- Errors `LoadPolicy` can return: the two domain errors of the source and
the generic decode error of the underlying JSON layer. -/
inductive LoadErr where
  | versionErr (raw : String)
  | effectErr (raw : String)
  | malformed (msg : String)
deriving DecidableEq, Repr

/-! ## Unmarshaling

Faithful to `encoding/json` on the wire shapes this package emits and the
concrete documents analysed here.  The custom unmarshalers receive the
rendering of the parsed field value, which agrees with Go (which passes the
raw field bytes) on compactly rendered input.  Not modelled, as no analysed
document exercises them: case-insensitive field-name fallback, interstitial
whitespace, numbers and booleans, and null elements inside arrays. -/

/-- Decode a JSON array of strings. -/
def strList : Json → Except LoadErr (List String)
  | .arr xs => xs.mapM fun x =>
      match x with
      | .str s => Except.ok s
      | _ => Except.error (.malformed "string element expected")
  | _ => .error (.malformed "array of strings expected")

/-- Decode a principal object (absent or null `AWS` leaves the slice nil). -/
def Principal.fromJson : Json → Except LoadErr Principal
  | .obj fs => fs.foldlM (fun acc kv =>
      if kv.1 = "AWS" then
        match kv.2 with
        | .null => Except.ok { acc with aws := none }
        | v => (strList v).map fun l => { acc with aws := some l }
      else Except.ok acc) ⟨none⟩
  | _ => .error (.malformed "object expected for Principal")

/-- Process one JSON object field of an inner condition map (a `null` value
list decodes to Go's nil slice, represented `[]`). -/
def stepCI (acc : CondInner) (kv : String × Json) : Except LoadErr CondInner :=
  match kv.2 with
  | .null => Except.ok (sinsert kv.1 [] acc)
  | v => (strList v).map fun vs => sinsert kv.1 vs acc

/-- Decode an inner condition map (`null` decodes to a nil inner map). -/
def condInnerFromJson : Json → Except LoadErr (Option CondInner)
  | .null => .ok none
  | .obj fs => (fs.foldlM stepCI []).map some
  | _ => .error (.malformed "object expected for condition values")

/-- Process one JSON object field of a condition map. -/
def stepC (acc : Cond) (kv : String × Json) : Except LoadErr Cond :=
  (condInnerFromJson kv.2).map fun iv => sinsert kv.1 iv acc

/-- Decode a condition map (`null` decodes to a nil map). -/
def condFromJson : Json → Except LoadErr (Option Cond)
  | .null => .ok none
  | .obj fs => (fs.foldlM stepC []).map some
  | _ => .error (.malformed "object expected for Condition")

/-- The zero `Statement` value `json.Unmarshal` starts from. -/
def zeroStatement : Statement := ⟨none, false, none, none, none, [], "", none⟩

/-- Process one JSON object field of a statement (unknown keys are
ignored, later duplicates overwrite, as in `encoding/json`). -/
def stepS (acc : Statement) (kv : String × Json) : Except LoadErr Statement :=
  if kv.1 = "Sid" then
    match kv.2 with
    | .null => .ok acc
    | .str s => .ok { acc with sid := some s }
    | _ => .error (.malformed "Sid: string expected")
  else if kv.1 = "Effect" then
    match Effect.unmarshalJSON kv.2.render with
    | .ok e => .ok { acc with effect := e }
    | .error raw => .error (.effectErr raw)
  else if kv.1 = "Principal" then
    match kv.2 with
    | .null => .ok { acc with principal := none }
    | v => (Principal.fromJson v).map fun pr => { acc with principal := some pr }
  else if kv.1 = "NotPrincipal" then
    match kv.2 with
    | .null => .ok { acc with notPrincipal := none }
    | v => (Principal.fromJson v).map fun pr => { acc with notPrincipal := some pr }
  else if kv.1 = "Action" then
    match kv.2 with
    | .null => .ok { acc with action := none }
    | v => (strList v).map fun l => { acc with action := some l }
  else if kv.1 = "NotAction" then
    match kv.2 with
    | .null => .ok { acc with notAction := [] }
    | v => (strList v).map fun l => { acc with notAction := l }
  else if kv.1 = "Resource" then
    match kv.2 with
    | .null => .ok acc
    | .str s => .ok { acc with resource := s }
    | _ => .error (.malformed "Resource: string expected")
  else if kv.1 = "Condition" then
    (condFromJson kv.2).map fun m => { acc with condition := m }
  else .ok acc

/-- Decode a statement object. -/
def Statement.fromJson : Json → Except LoadErr Statement
  | .obj fs => fs.foldlM stepS zeroStatement
  | _ => .error (.malformed "object expected for Statement")

/-- The zero `Policy` value `json.Unmarshal` starts from. -/
def zeroPolicy : Policy := ⟨none, none⟩

/-- Process one JSON object field of a policy. -/
def stepP (acc : Policy) (kv : String × Json) : Except LoadErr Policy :=
  if kv.1 = "Version" then
    match PolicyVersion.unmarshalJSON kv.2.render with
    | .ok _ => .ok acc
    | .error raw => .error (.versionErr raw)
  else if kv.1 = "Id" then
    match kv.2 with
    | .null => .ok acc
    | .str s => .ok { acc with id := some s }
    | _ => .error (.malformed "Id: string expected")
  else if kv.1 = "Statement" then
    match kv.2 with
    | .null => .ok { acc with statement := none }
    | .arr xs => (xs.mapM Statement.fromJson).map fun l => { acc with statement := some l }
    | _ => .error (.malformed "Statement: array expected")
  else .ok acc

/-- Decode a policy object. -/
def Policy.fromJson : Json → Except LoadErr Policy
  | .obj fs => fs.foldlM stepP zeroPolicy
  | _ => .error (.malformed "object expected for Policy")

/-- Create a policy from JSON (Go's `LoadPolicy`): a structural parse
failure is the generic decode error; field-level failures are the domain
errors. -/
def LoadPolicy (b : String) : Except LoadErr Policy :=
  match parseJson b with
  | none => .error (.malformed "invalid JSON input")
  | some j => Policy.fromJson j

/-! ## Reachable-state invariants and helpers -/

/-- Go's read `s.Condition[t][key]`: chained map reads with zero-value
defaults. -/
def condValues (s : Statement) (t k : String) : List String :=
  match s.condition with
  | none => []
  | some m =>
    match sfind t m with
    | some (some im) => (sfind k im).getD []
    | _ => []

/-- Invariant of condition maps produced by `AddCondition`: both levels are
strictly key-sorted and no inner map is nil. -/
def CondOK (m : Cond) : Prop :=
  m.Pairwise (fun a b => a.1 < b.1) ∧
  ∀ kv ∈ m, ∃ im, kv.2 = some im ∧ im.Pairwise (fun a b => a.1 < b.1)

/-- Shape invariant of statements reachable from `AddStatement` through the
mutators: allocated principal and action, allocated not-principal when
present, allocated condition map satisfying `CondOK`. -/
def StmtOK (s : Statement) : Prop :=
  (∃ l, s.principal = some ⟨some l⟩) ∧ (∃ l, s.action = some l) ∧
  (s.notPrincipal = none ∨ ∃ l, s.notPrincipal = some ⟨some l⟩) ∧
  (∃ m, s.condition = some m ∧ CondOK m)

/-- Statements reachable from `Policy.AddStatement` through the Statement
mutators; each constructor is one mutator of the source (the partial ones
through their success hypothesis). -/
inductive BuiltS : Statement → Prop where
  | new : BuiltS newStatement
  | setSid (i : String) {s : Statement} : BuiltS s → BuiltS (s.setSid i)
  | addPrincipal {p : String} {s s' : Statement} : BuiltS s →
      s.addPrincipal p = some s' → BuiltS s'
  | addNotPrincipal (p : String) {s : Statement} : BuiltS s →
      BuiltS (s.addNotPrincipal p)
  | addAction (a : String) {s : Statement} : BuiltS s → BuiltS (s.addAction a)
  | addNotAction (a : String) {s : Statement} : BuiltS s →
      BuiltS (s.addNotAction a)
  | addCondition {t k v : String} {s s' : Statement} : BuiltS s →
      s.addCondition t k v = some s' → BuiltS s'
  | setEffect (e : Effect) {s : Statement} : BuiltS s → BuiltS (s.setEffect e)
  | setResource (r : String) {s : Statement} : BuiltS s →
      BuiltS (s.setResource r)

/-- Policies built from `NewPolicy` via `SetId`, `AddStatement` and the
Statement mutators applied to the owned statements. -/
def BuiltP (p : Policy) : Prop :=
  ∃ l, p.statement = some l ∧ ∀ s ∈ l, BuiltS s

/-- Collapse of one statement under an encode/decode round trip: an
allocated-but-empty condition map is omitted from the encoding and reads
back as nil; every other field survives exactly. -/
def collapseS (s : Statement) : Statement :=
  { s with condition := match s.condition with | some [] => none | c => c }

/-- Collapse of a policy under an encode/decode round trip. -/
def collapseP (p : Policy) : Policy :=
  { p with statement := p.statement.map (·.map collapseS) }

/-! ## Named constants of the source (condition operators and variables) -/

/-- ConditionType represents the comparison types for statement conditions;
any string key is carried through the encoding unchanged. -/
abbrev ConditionType := String

/-- ConditionVariable represents the condition variables known by name. -/
abbrev ConditionVariable := String

def ConditionStringEquals : ConditionType := "StringEquals"

def ConditionStringNotEquals : ConditionType := "StringNotEquals"

def ConditionStringEqualsIgnoreCase : ConditionType := "StringEqualsIgnoreCase"

def ConditionStringNotEqualsIgnoreCase : ConditionType := "StringNotEqualsIgnoreCase"

def ConditionStringLike : ConditionType := "StringLike"

def ConditionStringNotLike : ConditionType := "StringNotLike"

def ConditionNumericEquals : ConditionType := "NumericEquals"

def ConditionNumericNotEquals : ConditionType := "NumericNotEquals"

def ConditionNumericLessThan : ConditionType := "NumericLessThan"

def ConditionNumericLessThanEquals : ConditionType := "NumericLessThanEquals"

def ConditionNumericGreaterThan : ConditionType := "NumericGreaterThan"

def ConditionNumericGreaterThanEquals : ConditionType := "NumericGreaterThanEquals"

def ConditionDateEquals : ConditionType := "DateEquals"

def ConditionDateNotEquals : ConditionType := "DateNotEquals"

def ConditionDateLessThan : ConditionType := "DateLessThan"

def ConditionDateLessThanEquals : ConditionType := "DateLessThanEquals"

def ConditionDateGreaterThan : ConditionType := "DateGreaterThan"

def ConditionDateGreaterThanEquals : ConditionType := "DateGreaterThanEquals"

def ConditionBool : ConditionType := "Bool"

def ConditionIpAddress : ConditionType := "IpAddress"

def ConditionNotIpAddress : ConditionType := "NotIpAddress"

def ConditionArnEquals : ConditionType := "ArnEquals"

def ConditionArnNotEquals : ConditionType := "ArnNotEquals"

def ConditionArnLike : ConditionType := "ArnLike"

def ConditionArnNotLike : ConditionType := "ArnNotLike"

def ConditionNull : ConditionType := "Null"

def VarCurrentTime : ConditionVariable := "aws:CurrentTime"

def VarEpochTime : ConditionVariable := "aws:EpochTime"

def VarMultiFactorAuthAge : ConditionVariable := "aws:MultiFactorAuthAge"

def VarPrincipalType : ConditionVariable := "aws:principaltype"

def VarSecureTransport : ConditionVariable := "aws:SecureTransport"

def VarSourceArn : ConditionVariable := "aws:SourceArn"

def VarSourceIp : ConditionVariable := "aws:SourceIp"

def VarUserAgent : ConditionVariable := "aws:UserAgent"

def VarUsedId : ConditionVariable := "aws:userid"

def VarUsername : ConditionVariable := "aws:username"

/-- Fields of a JSON object (empty for non-objects). -/
def objFields : Json → List (String × Json)
  | .obj fs => fs
  | _ => []

/-- Sequence of AddCondition calls (operator, variable, value) applied to
the fresh statement AddStatement returns. -/
def runConds (ops : List (String × String × String)) : Option Statement :=
  ops.foldlM (fun st o => st.addCondition o.1 o.2.1 o.2.2) newStatement

/-! ## Theorems -/

theorem Json.weight_pos (j : Json) : 1 ≤ j.weight := by
  cases j <;> simp [Json.weight]

theorem hexVal_hexDigitChar {n : Nat} (h : n < 16) : hexVal (hexDigitChar n) = some n := by
  interval_cases n <;> decide

/-- Round trip of a single escaped character: the string-body parser undoes
`escChar` and continues with the rest of the input. -/
theorem parseStrBody_escChar (c : Char) (t : List Char) :
    parseStrBody (escChar c ++ t) = (parseStrBody t).map fun p => (c :: p.1, p.2) := by
  unfold escChar
  split_ifs with h1 h2 h3 h4 h5 h6 h7
  · subst h1; rw [List.cons_append, List.cons_append, List.nil_append, parseStrBody.eq_def]
    simp [unescChar]
  · subst h2; rw [List.cons_append, List.cons_append, List.nil_append, parseStrBody.eq_def]
    simp [unescChar]
  · subst h3; rw [List.cons_append, List.cons_append, List.nil_append, parseStrBody.eq_def]
    simp [unescChar]
  · subst h4; rw [List.cons_append, List.cons_append, List.nil_append, parseStrBody.eq_def]
    simp [unescChar]
  · subst h5; rw [List.cons_append, List.cons_append, List.nil_append, parseStrBody.eq_def]
    simp [unescChar]
  · have hlt : c.toNat < 128 := by
      rcases h6 with h | h | h | h
      · omega
      all_goals subst h; decide
    have hd1 : c.toNat / 16 < 16 := by omega
    have hd2 : c.toNat % 16 < 16 := Nat.mod_lt _ (by omega)
    have hrec : c.toNat / 16 * 16 + c.toNat % 16 = c.toNat := by omega
    simp only [List.cons_append, List.nil_append, parseStrBody, hex4,
      hexVal_hexDigitChar hd1, hexVal_hexDigitChar hd2]
    simp [hexVal, hrec, Char.ofNat_toNat]
  · have hd2 : c.toNat % 16 < 16 := Nat.mod_lt _ (by omega)
    have hrec : 2 * 4096 + 0 * 256 + 2 * 16 + c.toNat % 16 = c.toNat := by
      rcases h7 with h | h <;> omega
    simp only [List.cons_append, List.nil_append, parseStrBody, hex4,
      hexVal_hexDigitChar hd2]
    simp [hexVal, hrec, Char.ofNat_toNat]
  · rw [List.cons_append, List.nil_append, parseStrBody.eq_def]
    simp [h1, h2]

/-- Round trip of a whole escaped string body: the parser undoes `escData`
and stops at the closing quote. -/
theorem parseStrBody_escData (s : List Char) (t : List Char) :
    parseStrBody (escData s ++ '"' :: t) = some (s, t) := by
  induction s with
  | nil =>
      show parseStrBody ('"' :: t) = some ([], t)
      rw [parseStrBody.eq_def]; simp
  | cons c cs ih =>
      have : escData (c :: cs) = escChar c ++ escData cs := by
        simp [escData]
      rw [this, List.append_assoc, parseStrBody_escChar]
      simp [ih]

theorem renderItems_cons (x : Json) (xs : List Json) :
    Json.renderItems (x :: xs) = x.renderData ++ itemsTail xs := by
  cases xs <;> simp [Json.renderItems, itemsTail]

theorem renderFields_cons (k : String) (v : Json) (fs : List (String × Json)) :
    Json.renderFields ((k, v) :: fs) =
      '"' :: escData k.data ++ '"' :: ':' :: v.renderData ++ fieldsTail fs := by
  cases fs <;> simp [Json.renderFields, fieldsTail]

/-- Every rendered JSON value is nonempty and starts with a character other
than the delimiters the parser dispatches on elsewhere. -/
theorem renderData_head (j : Json) :
    ∃ c r, j.renderData = c :: r ∧ c ≠ ']' ∧ c ≠ rbrace ∧ c ≠ ',' := by
  cases j <;> refine ⟨_, _, rfl, ?_, ?_, ?_⟩ <;> decide

theorem weightItems_pos (x : Json) (xs : List Json) :
    1 ≤ Json.weightItems (x :: xs) := by
  simp [Json.weightItems]

theorem lbrace_ne_n : lbrace ≠ 'n' := by decide

theorem lbrace_ne_quote : lbrace ≠ '"' := by decide

theorem lbrace_ne_lbracket : lbrace ≠ '[' := by decide

theorem quote_ne_rbrace : ('"' : Char) ≠ rbrace := by decide

theorem rbrace_ne_comma : rbrace ≠ ',' := by decide

theorem parse_render_aux : ∀ fuel : Nat,
    (∀ (j : Json) (t : List Char), j.weight ≤ fuel →
        parseVal fuel (j.renderData ++ t) = some (j, t))
  ∧ (∀ (x : Json) (xs : List Json) (t : List Char), Json.weightItems (x :: xs) ≤ fuel →
        parseArrItems fuel (Json.renderItems (x :: xs) ++ ']' :: t) = some (x :: xs, t))
  ∧ (∀ (f : String × Json) (fs : List (String × Json)) (t : List Char),
        Json.weightFields (f :: fs) ≤ fuel →
        parseObjFields fuel (Json.renderFields (f :: fs) ++ rbrace :: t) = some (f :: fs, t)) := by
  intro fuel
  induction fuel with
  | zero =>
      refine ⟨fun j t h => absurd h (by have := j.weight_pos; omega), ?_, ?_⟩
      · intro x xs t h; exfalso
        have h1 := x.weight_pos
        simp [Json.weightItems] at h
      · intro f fs t h; exfalso
        have h1 := f.2.weight_pos
        simp [Json.weightFields] at h
  | succ fuel ih =>
      obtain ⟨ihV, ihI, ihF⟩ := ih
      refine ⟨?_, ?_, ?_⟩
      · intro j t hw
        cases j with
        | null =>
            show parseVal (fuel + 1) (['n', 'u', 'l', 'l'] ++ t) = some (.null, t)
            rw [parseVal.eq_def]
            simp
        | str s =>
            show parseVal (fuel + 1) (('"' :: escData s.data ++ ['"']) ++ t) = some (.str s, t)
            rw [parseVal.eq_def]
            simp only [List.cons_append, List.append_assoc, List.singleton_append]
            simp [parseStrBody_escData]
        | arr xs =>
            cases xs with
            | nil =>
                show parseVal (fuel + 1) (['[', ']'] ++ t) = some (.arr [], t)
                rw [parseVal.eq_def]
                simp
            | cons x xs =>
                obtain ⟨c, r, hcr, hc1, hc2, hc3⟩ := renderData_head x
                have hw' : Json.weightItems (x :: xs) ≤ fuel := by
                  simp [Json.weight] at hw; omega
                have hpi := ihI x xs t hw'
                rw [renderItems_cons, hcr] at hpi
                show parseVal (fuel + 1)
                    (('[' :: Json.renderItems (x :: xs) ++ [']']) ++ t) = some (.arr (x :: xs), t)
                rw [parseVal.eq_def, renderItems_cons, hcr]
                simp only [List.cons_append, List.append_assoc, List.singleton_append] at hpi ⊢
                simp [hc1, hpi]
        | obj fs =>
            cases fs with
            | nil =>
                show parseVal (fuel + 1) ([lbrace, rbrace] ++ t) = some (.obj [], t)
                rw [parseVal.eq_def]
                simp [lbrace_ne_n, lbrace_ne_quote, lbrace_ne_lbracket]
            | cons f fs =>
                obtain ⟨k, v⟩ := f
                have hw' : Json.weightFields ((k, v) :: fs) ≤ fuel := by
                  simp [Json.weight] at hw; omega
                have hpf := ihF (k, v) fs t hw'
                rw [renderFields_cons] at hpf
                show parseVal (fuel + 1)
                    ((lbrace :: Json.renderFields ((k, v) :: fs) ++ [rbrace]) ++ t)
                    = some (.obj ((k, v) :: fs), t)
                rw [parseVal.eq_def, renderFields_cons]
                simp only [List.cons_append, List.append_assoc, List.singleton_append] at hpf ⊢
                simp [lbrace_ne_n, lbrace_ne_quote, lbrace_ne_lbracket, quote_ne_rbrace, hpf]
      · intro x xs t hw
        rw [parseArrItems.eq_def]
        cases xs with
        | nil =>
            have hw' : x.weight ≤ fuel := by
              simp [Json.weightItems] at hw; omega
            simp only [Json.renderItems]
            simp [ihV x (']' :: t) hw']
        | cons y ys =>
            have hwx : x.weight ≤ fuel := by
              have h2 := weightItems_pos y ys
              simp [Json.weightItems] at hw ⊢; omega
            have hwy : Json.weightItems (y :: ys) ≤ fuel := by
              have h2 := x.weight_pos
              simp [Json.weightItems] at hw ⊢; omega
            rw [renderItems_cons]
            simp only [itemsTail, List.append_assoc, List.cons_append]
            rw [ihV x (',' :: (Json.renderItems (y :: ys) ++ ']' :: t)) hwx]
            simp [ihI y ys t hwy]
      · rintro ⟨k, v⟩ fs t hw
        rw [parseObjFields.eq_def]
        have hwv : v.weight ≤ fuel := by
          simp [Json.weightFields] at hw; omega
        rw [renderFields_cons]
        cases fs with
        | nil =>
            simp only [fieldsTail, List.cons_append, List.append_assoc, List.append_nil]
            simp [parseStrBody_escData, ihV v (rbrace :: t) hwv, rbrace_ne_comma]
        | cons f2 fs2 =>
            have hwf : Json.weightFields (f2 :: fs2) ≤ fuel := by
              have h2 := v.weight_pos
              simp [Json.weightFields] at hw ⊢; omega
            simp only [fieldsTail, List.cons_append, List.append_assoc]
            simp [parseStrBody_escData, ihV v _ hwv, ihF f2 fs2 t hwf]

theorem weight_le_aux : ∀ n : Nat,
    (∀ j : Json, j.weight ≤ n → j.weight ≤ j.renderData.length)
  ∧ (∀ (x : Json) (xs : List Json), Json.weightItems (x :: xs) ≤ n →
        Json.weightItems (x :: xs) ≤ (Json.renderItems (x :: xs)).length + 1)
  ∧ (∀ (f : String × Json) (fs : List (String × Json)), Json.weightFields (f :: fs) ≤ n →
        Json.weightFields (f :: fs) ≤ (Json.renderFields (f :: fs)).length + 1) := by
  intro n
  induction n with
  | zero =>
      refine ⟨fun j h => absurd h (by have := j.weight_pos; omega), ?_, ?_⟩
      · intro x xs h; exfalso; simp [Json.weightItems] at h
      · intro f fs h; exfalso; simp [Json.weightFields] at h
  | succ n ih =>
      obtain ⟨ihV, ihI, ihF⟩ := ih
      refine ⟨?_, ?_, ?_⟩
      · intro j hw
        cases j with
        | null => simp [Json.weight, Json.renderData]
        | str s => simp [Json.weight, Json.renderData]
        | arr xs =>
            cases xs with
            | nil => simp [Json.weight, Json.renderData, Json.weightItems, Json.renderItems]
            | cons x xs =>
                have hw' : Json.weightItems (x :: xs) ≤ n := by
                  simp [Json.weight] at hw; omega
                have := ihI x xs hw'
                simp [Json.weight, Json.renderData] at *; omega
        | obj fs =>
            cases fs with
            | nil => simp [Json.weight, Json.renderData, Json.weightFields, Json.renderFields]
            | cons f fs =>
                have hw' : Json.weightFields (f :: fs) ≤ n := by
                  simp [Json.weight] at hw; omega
                have := ihF f fs hw'
                simp [Json.weight, Json.renderData] at *; omega
      · intro x xs hw
        cases xs with
        | nil =>
            have hw' : x.weight ≤ n := by simp [Json.weightItems] at hw; omega
            have := ihV x hw'
            simp [Json.weightItems, Json.renderItems] at *; omega
        | cons y ys =>
            have hwx : x.weight ≤ n := by
              have := weightItems_pos y ys
              simp [Json.weightItems] at hw; omega
            have hwy : Json.weightItems (y :: ys) ≤ n := by
              have := x.weight_pos
              simp [Json.weightItems] at hw ⊢; omega
            have h1 := ihV x hwx
            have h2 := ihI y ys hwy
            rw [renderItems_cons]
            simp only [itemsTail, Json.weightItems, List.length_append, List.length_cons] at *
            omega
      · rintro ⟨k, v⟩ fs hw
        have hwv : v.weight ≤ n := by simp [Json.weightFields] at hw; omega
        have h1 := ihV v hwv
        cases fs with
        | nil =>
            rw [renderFields_cons]
            simp only [fieldsTail, Json.weightFields, List.append_nil, List.length_append,
              List.length_cons] at *
            omega
        | cons f2 fs2 =>
            have hwf : Json.weightFields (f2 :: fs2) ≤ n := by
              have := v.weight_pos
              simp [Json.weightFields] at hw ⊢; omega
            have h2 := ihF f2 fs2 hwf
            rw [renderFields_cons]
            simp only [fieldsTail, Json.weightFields, List.length_append, List.length_cons] at *
            omega

/-- The parser inverts the renderer on every JSON value. -/
theorem parseJson_render (j : Json) : parseJson j.render = some j := by
  have hw : j.weight ≤ j.renderData.length + 1 := by
    have := (weight_le_aux j.weight).1 j le_rfl
    omega
  have h := (parse_render_aux (j.renderData.length + 1)).1 j [] hw
  rw [List.append_nil] at h
  show (match parseVal (j.render.length + 1) j.render.data with
    | some (j, []) => some j
    | _ => none) = some j
  have hlen : j.render.length = j.renderData.length := rfl
  have hdata : j.render.data = j.renderData := rfl
  rw [hlen, hdata, h]

theorem sfind_sinsert_self {α : Type} (k : String) (v : α) (l : List (String × α)) :
    sfind k (sinsert k v l) = some v := by
  induction l with
  | nil => simp only [sinsert, sfind, if_pos rfl, if_true]
  | cons hd t ih =>
      obtain ⟨k', v'⟩ := hd
      by_cases h1 : k = k'
      · simp only [sinsert, if_pos h1, sfind, if_pos rfl, if_true]
      · by_cases h2 : k < k'
        · simp only [sinsert, if_neg h1, if_pos h2, sfind, if_pos rfl, if_true]
        · simp only [sinsert, if_neg h1, if_neg h2, sfind, if_neg h1, ih]

theorem sfind_sinsert_ne {α : Type} {k k0 : String} (v : α) (l : List (String × α))
    (h : k0 ≠ k) : sfind k0 (sinsert k v l) = sfind k0 l := by
  induction l with
  | nil => simp only [sinsert, sfind, if_neg h]
  | cons hd t ih =>
      obtain ⟨k', v'⟩ := hd
      by_cases h1 : k = k'
      · subst h1
        simp only [sinsert, if_pos rfl, sfind, if_neg h]
      · by_cases h2 : k < k'
        · simp only [sinsert, if_neg h1, if_pos h2, sfind, if_neg h]
        · simp only [sinsert, if_neg h1, if_neg h2, sfind, ih]

theorem mem_sinsert {α : Type} {k : String} {v : α} {l : List (String × α)} :
    ∀ x ∈ sinsert k v l, x = (k, v) ∨ x ∈ l := by
  induction l with
  | nil => simp [sinsert]
  | cons hd t ih =>
      obtain ⟨k', v'⟩ := hd
      intro x hx
      by_cases h1 : k = k'
      · subst h1
        simp only [sinsert, if_pos rfl] at hx
        rcases List.mem_cons.1 hx with h | h
        · left; exact h
        · right; exact List.mem_cons_of_mem _ h
      · by_cases h2 : k < k'
        · simp only [sinsert, if_neg h1, if_pos h2] at hx
          rcases List.mem_cons.1 hx with h | h
          · left; exact h
          · right; exact h
        · simp only [sinsert, if_neg h1, if_neg h2] at hx
          rcases List.mem_cons.1 hx with h | h
          · right; rw [h]; exact List.mem_cons_self _ _
          · rcases ih x h with h3 | h3
            · left; exact h3
            · right; exact List.mem_cons_of_mem _ h3

theorem sorted_sinsert {α : Type} (k : String) (v : α) {l : List (String × α)}
    (h : l.Pairwise (fun a b => a.1 < b.1)) :
    (sinsert k v l).Pairwise (fun a b => a.1 < b.1) := by
  induction l with
  | nil => simp [sinsert]
  | cons hd t ih =>
      obtain ⟨k', v'⟩ := hd
      rw [List.pairwise_cons] at h
      obtain ⟨hlt, hp⟩ := h
      by_cases h1 : k = k'
      · subst h1
        simp only [sinsert, if_pos rfl, if_true]
        rw [List.pairwise_cons]
        exact ⟨hlt, hp⟩
      · by_cases h2 : k < k'
        · simp only [sinsert, if_neg h1, if_pos h2]
          rw [List.pairwise_cons]
          refine ⟨?_, ?_⟩
          · intro a ha
            rcases List.mem_cons.1 ha with h3 | h3
            · rw [h3]; exact h2
            · exact lt_trans h2 (hlt a h3)
          · rw [List.pairwise_cons]
            exact ⟨hlt, hp⟩
        · have h3 : k' < k := by
            rcases lt_trichotomy k k' with h4 | h4 | h4
            · exact absurd h4 h2
            · exact absurd h4 h1
            · exact h4
          simp only [sinsert, if_neg h1, if_neg h2]
          rw [List.pairwise_cons]
          refine ⟨?_, ih hp⟩
          intro a ha
          rcases mem_sinsert a ha with h4 | h4
          · rw [h4]; exact h3
          · exact hlt a h4

/-- Insertion at a key above every present key is an append (used for the
decode-of-encode identity: re-inserting sorted fields left to right). -/
theorem sinsert_append_gt {α : Type} (k : String) (v : α) {l : List (String × α)}
    (h : ∀ x ∈ l, x.1 < k) : sinsert k v l = l ++ [(k, v)] := by
  induction l with
  | nil => simp [sinsert]
  | cons hd t ih =>
      obtain ⟨k', v'⟩ := hd
      have h1 : k' < k := h (k', v') (List.mem_cons_self _ _)
      have h2 : ¬k = k' := fun he => absurd (he ▸ h1) (lt_irrefl k)
      have h3 : ¬k < k' := fun hlt => absurd (lt_trans hlt h1) (lt_irrefl k)
      simp only [sinsert, if_neg h2, if_neg h3, List.cons_append, List.cons.injEq, true_and]
      exact ih fun x hx => h x (List.mem_cons_of_mem _ hx)

theorem condOK_addCondition {m : Cond} (t k v : String) (hm : CondOK m)
    {im : CondInner}
    (him : sfind t m = none ∧ im = [] ∨ sfind t m = some (some im)) :
    CondOK (sinsert t (some (sinsert k ((sfind k im).getD [] ++ [v]) im)) m) := by
  obtain ⟨hsort, hvals⟩ := hm
  constructor
  · exact sorted_sinsert _ _ hsort
  · intro kv hkv
    rcases mem_sinsert kv hkv with h | h
    · subst h
      refine ⟨_, rfl, sorted_sinsert _ _ ?_⟩
      rcases him with ⟨_, h2⟩ | h2
      · subst h2; exact List.Pairwise.nil
      · -- the inner map is a value of m, hence sorted
        have : ∃ kv0, kv0 ∈ m ∧ kv0.1 = t ∧ kv0.2 = some im := by
          clear hkv hsort hvals
          induction m with
          | nil => simp [sfind] at h2
          | cons hd tl ih =>
              by_cases he : t = hd.1
              · refine ⟨hd, List.mem_cons_self _ _, he.symm, ?_⟩
                simpa [sfind, he] using h2
              · simp only [sfind] at h2
                rw [if_neg ?_] at h2
                · obtain ⟨kv0, h3, h4, h5⟩ := ih h2
                  exact ⟨kv0, List.mem_cons_of_mem _ h3, h4, h5⟩
                · exact fun hh => he (by rw [hh])
        obtain ⟨kv0, h3, _, h5⟩ := this
        obtain ⟨im', h6, h7⟩ := hvals kv0 h3
        rw [h5] at h6
        cases h6
        exact h7
    · exact hvals kv h

theorem builtS_stmtOK {s : Statement} (h : BuiltS s) : StmtOK s := by
  induction h with
  | new =>
      exact ⟨⟨[], rfl⟩, ⟨[], rfl⟩, Or.inl rfl, [], rfl, List.Pairwise.nil, by simp⟩
  | setSid i _ ih => exact ih
  | @addPrincipal p s0 s0' _ he ih =>
      obtain ⟨⟨l, hpr⟩, ha, hnp, hc⟩ := ih
      unfold Statement.addPrincipal at he
      rw [hpr] at he
      simp only [Option.map] at he
      cases he
      exact ⟨⟨_, rfl⟩, ha, hnp, hc⟩
  | addNotPrincipal p _ ih =>
      obtain ⟨hpr, ha, _, hc⟩ := ih
      exact ⟨hpr, ha, Or.inr ⟨_, rfl⟩, hc⟩
  | addAction a _ ih =>
      obtain ⟨hpr, _, hnp, hc⟩ := ih
      exact ⟨hpr, ⟨_, rfl⟩, hnp, hc⟩
  | addNotAction a _ ih =>
      obtain ⟨hpr, ha, hnp, hc⟩ := ih
      exact ⟨hpr, ha, hnp, hc⟩
  | @addCondition t k v s0 s0' _ he ih =>
      obtain ⟨hpr, ha, hnp, m, hm, hok⟩ := ih
      unfold Statement.addCondition at he
      rw [hm] at he
      simp only [Option.some_bind] at he
      rcases hfind : sfind t m with _ | oim
      · rw [hfind] at he
        simp only [Option.map] at he
        cases he
        exact ⟨hpr, ha, hnp, _, rfl, condOK_addCondition t k v hok (Or.inl ⟨hfind, rfl⟩)⟩
      · cases oim with
        | none => rw [hfind] at he; simp at he
        | some im =>
            rw [hfind] at he
            simp only [Option.map] at he
            cases he
            exact ⟨hpr, ha, hnp, _, rfl, condOK_addCondition t k v hok (Or.inr hfind)⟩
  | setEffect e _ ih => exact ih
  | setResource r _ ih => exact ih

theorem strList_map_str (l : List String) : strList (.arr (l.map .str)) = .ok l := by
  induction l with
  | nil => rfl
  | cons h t ih =>
      simp only [strList, List.map_cons, List.mapM_cons] at ih ⊢
      rw [ih]
      rfl

theorem principal_roundtrip (l : List String) :
    Principal.fromJson (Principal.toJson ⟨some l⟩) = .ok ⟨some l⟩ := by
  simp only [Principal.toJson, Principal.fromJson, List.foldlM_cons, List.foldlM_nil]
  simp [strList_map_str]
  rfl

theorem condInner_fold (im : CondInner) :
    ∀ acc : CondInner, im.Pairwise (fun a b => a.1 < b.1) →
      (∀ x ∈ acc, ∀ y ∈ im, x.1 < y.1) →
      List.foldlM stepCI acc (im.map fun kv => (kv.1, Json.arr (kv.2.map .str)))
        = .ok (acc ++ im) := by
  induction im with
  | nil => intro acc _ _; simp; rfl
  | cons hd t ih =>
      intro acc hs hgt
      obtain ⟨k, vs⟩ := hd
      rw [List.pairwise_cons] at hs
      obtain ⟨hlt, hp⟩ := hs
      simp only [List.map_cons, List.foldlM_cons]
      have h1 : stepCI acc (k, Json.arr (vs.map .str)) = .ok (acc ++ [(k, vs)]) := by
        simp only [stepCI, strList_map_str, Except.map]
        rw [sinsert_append_gt k vs fun x hx => hgt x hx (k, vs) (List.mem_cons_self _ _)]
      rw [h1]
      have h2 := ih (acc ++ [(k, vs)]) hp ?_
      · simpa using h2
      · intro x hx y hy
        rcases List.mem_append.1 hx with h3 | h3
        · exact hgt x h3 y (List.mem_cons_of_mem _ hy)
        · simp at h3
          rw [show x.1 = k by rw [h3]]
          exact hlt y hy

theorem condInner_roundtrip (im : CondInner) (hs : im.Pairwise (fun a b => a.1 < b.1)) :
    condInnerFromJson (condInnerToJson (some im)) = .ok (some im) := by
  simp only [condInnerToJson, condInnerFromJson]
  rw [condInner_fold im [] hs (by simp)]
  rfl

theorem cond_fold (m : Cond) :
    ∀ acc : Cond, CondOK m →
      (∀ x ∈ acc, ∀ y ∈ m, x.1 < y.1) →
      List.foldlM stepC acc (m.map fun kv => (kv.1, condInnerToJson kv.2))
        = .ok (acc ++ m) := by
  induction m with
  | nil => intro acc _ _; simp; rfl
  | cons hd t ih =>
      intro acc hok hgt
      obtain ⟨k, iv⟩ := hd
      obtain ⟨hsort, hvals⟩ := hok
      rw [List.pairwise_cons] at hsort
      obtain ⟨hlt, hp⟩ := hsort
      obtain ⟨im, him, hims⟩ := hvals (k, iv) (List.mem_cons_self _ _)
      simp only at him
      subst him
      simp only [List.map_cons, List.foldlM_cons]
      have h1 : stepC acc (k, condInnerToJson (some im)) = .ok (acc ++ [(k, some im)]) := by
        simp only [stepC, condInner_roundtrip im hims, Except.map]
        rw [sinsert_append_gt k (some im) fun x hx => hgt x hx (k, some im) (List.mem_cons_self _ _)]
      rw [h1]
      have hok' : CondOK t := ⟨hp, fun kv hkv => hvals kv (List.mem_cons_of_mem _ hkv)⟩
      have h2 := ih (acc ++ [(k, some im)]) hok' ?_
      · simpa using h2
      · intro x hx y hy
        rcases List.mem_append.1 hx with h3 | h3
        · exact hgt x h3 y (List.mem_cons_of_mem _ hy)
        · simp at h3
          rw [show x.1 = k by rw [h3]]
          exact hlt y hy

theorem cond_roundtrip (m : Cond) (hok : CondOK m) :
    condFromJson (condToJson m) = .ok (some m) := by
  simp only [condToJson, condFromJson]
  rw [cond_fold m [] hok (by simp)]
  rfl

theorem effect_unmarshal_allow :
    Effect.unmarshalJSON (Json.render (.str "Allow")) = .ok true := rfl

theorem effect_unmarshal_deny :
    Effect.unmarshalJSON (Json.render (.str "Deny")) = .ok false := rfl

theorem principal_toJson_shape (l : List String) :
    Principal.toJson ⟨some l⟩ = .obj [("AWS", .arr (l.map .str))] := rfl

theorem principal_fromJson_obj (l : List String) :
    Principal.fromJson (.obj [("AWS", .arr (l.map .str))]) = .ok ⟨some l⟩ := by
  have := principal_roundtrip l
  rwa [principal_toJson_shape] at this

theorem strList_str_cons (a : String) (t : List String) :
    strList (.arr (Json.str a :: t.map .str)) = .ok (a :: t) := by
  simpa using strList_map_str (a :: t)

theorem statement_roundtrip (s : Statement) (h : StmtOK s) :
    Statement.fromJson s.toJson = .ok (collapseS s) := by
  obtain ⟨sid, eff, pr, np, ac, na, res, cond⟩ := s
  obtain ⟨⟨pl, hpr⟩, ⟨al, hac⟩, hnp, m, hm, hok⟩ := h
  simp only at hpr hac hm
  subst hpr hac hm
  have hcr := cond_roundtrip m hok
  rcases hnp with hnp | ⟨nl, hnp⟩ <;> simp only at hnp <;> subst hnp <;>
    cases sid <;> cases eff <;> rcases na with _ | ⟨na0, nat⟩ <;> rcases m with _ | ⟨m0, mt⟩ <;>
    (simp [Statement.toJson, Statement.fromJson, stepS, collapseS, zeroStatement,
      strList_map_str, strList_str_cons, principal_toJson_shape, principal_fromJson_obj, hcr,
      effect_unmarshal_allow, effect_unmarshal_deny, Except.map]) <;> rfl

theorem version_unmarshal_render :
    PolicyVersion.unmarshalJSON (Json.render (.str "2012-10-17")) = .ok () := rfl

theorem policy_fromJson_toJson (p : Policy) (h : BuiltP p) :
    Policy.fromJson p.toJson = .ok (collapseP p) := by
  obtain ⟨pid, st⟩ := p
  obtain ⟨l, hst, hall⟩ := h
  simp only at hst
  subst hst
  have hmap : (l.map Statement.toJson).mapM Statement.fromJson = .ok (l.map collapseS) := by
    induction l with
    | nil => rfl
    | cons s t ih =>
        have h1 := statement_roundtrip s (builtS_stmtOK (hall s (List.mem_cons_self _ _)))
        have h2 := ih fun s hs => hall s (List.mem_cons_of_mem _ hs)
        rw [List.map_cons, List.mapM_cons, h1, h2]
        rfl
  have hmap2 : List.mapM.loop Statement.fromJson (List.map Statement.toJson l) []
      = Except.ok (List.map collapseS l) := hmap
  cases pid <;>
    (simp [Policy.toJson, Policy.fromJson, stepP, zeroPolicy, collapseP, hmap, hmap2,
      version_unmarshal_render, Except.map]) <;> rfl

/-- Round trip of every built policy, up to the condition-map collapse. -/
theorem loadPolicy_get (p : Policy) (h : BuiltP p) :
    LoadPolicy p.get = .ok (collapseP p) := by
  unfold LoadPolicy Policy.get
  rw [parseJson_render]
  exact policy_fromJson_toJson p h

theorem sfind_mem {α : Type} {k : String} {x : α} :
    ∀ {l : List (String × α)}, sfind k l = some x → (k, x) ∈ l := by
  intro l
  induction l with
  | nil => intro h; simp [sfind] at h
  | cons hd t ih =>
      intro h
      simp only [sfind] at h
      by_cases he : k = hd.1
      · rw [if_pos he] at h
        cases h
        rw [he]
        exact List.mem_cons_self _ _
      · rw [if_neg he] at h
        exact List.mem_cons_of_mem _ (ih h)

/-- Full characterization of a successful `AddCondition`: the new value is
appended at `condition[t][k]`, every other slot is untouched, nil inner
maps are not introduced, and the sortedness invariant is preserved. -/
theorem addCondition_result (s : Statement) (m : Cond) (t k v : String)
    (hm : s.condition = some m) (hi : sfind t m ≠ some none) :
    ∃ s' m', s.addCondition t k v = some s' ∧ s'.condition = some m' ∧
      condValues s' t k = condValues s t k ++ [v] ∧
      (∀ t0 k0, ¬(t0 = t ∧ k0 = k) → condValues s' t0 k0 = condValues s t0 k0) ∧
      (∀ t0, sfind t0 m' = some none → sfind t0 m = some none) ∧
      (CondOK m → CondOK m') ∧
      s'.sid = s.sid ∧ s'.effect = s.effect ∧ s'.principal = s.principal ∧
      s'.notPrincipal = s.notPrincipal ∧ s'.action = s.action ∧
      s'.notAction = s.notAction ∧ s'.resource = s.resource := by
  have him : ∃ im, sfind t m = none ∧ im = [] ∨ sfind t m = some (some im) := by
    rcases hf : sfind t m with _ | oim
    · exact ⟨[], Or.inl ⟨rfl, rfl⟩⟩
    · cases oim with
      | none => exact absurd hf hi
      | some im => exact ⟨im, Or.inr rfl⟩
  obtain ⟨im, him⟩ := him
  refine ⟨{ s with condition := some (sinsert t
      (some (sinsert k ((sfind k im).getD [] ++ [v]) im)) m) },
    sinsert t (some (sinsert k ((sfind k im).getD [] ++ [v]) im)) m,
    ?_, rfl, ?_, ?_, ?_, fun hok => condOK_addCondition t k v hok him,
    rfl, rfl, rfl, rfl, rfl, rfl, rfl⟩
  · unfold Statement.addCondition
    rw [hm]
    simp only [Option.some_bind]
    rcases him with ⟨hf, he⟩ | hf
    · subst he
      rw [hf]
      rfl
    · rw [hf]
      rfl
  · simp only [condValues, hm, sfind_sinsert_self]
    rcases him with ⟨hf, he⟩ | hf
    · subst he
      rw [hf]
      simp [sfind]
    · rw [hf]
      rfl
  · intro t0 k0 hne
    by_cases ht : t0 = t
    · subst ht
      have hk : k0 ≠ k := fun he => hne ⟨rfl, he⟩
      simp only [condValues, hm, sfind_sinsert_self, sfind_sinsert_ne _ _ hk]
      rcases him with ⟨hf, he⟩ | hf
      · subst he
        rw [hf]
        simp [sfind]
      · rw [hf]
    · simp only [condValues, hm, sfind_sinsert_ne _ _ ht]
  · intro t0 h0
    by_cases ht : t0 = t
    · subst ht
      rw [sfind_sinsert_self] at h0
      cases h0
    · rw [sfind_sinsert_ne _ _ ht] at h0
      exact h0

/-- C4: decoding a version field succeeds exactly when the literal is
"2012-10-17" or "2008-10-17"; any other literal (for example "2009-10-17")
fails with an InvalidPolicyVersionError carrying the raw offending value,
also through the whole LoadPolicy pipeline. -/
theorem claim_C4_version_validation :
    (∀ b : String, PolicyVersion.unmarshalJSON b = .ok () ↔
        b = "\"2012-10-17\"" ∨ b = "\"2008-10-17\"")
    ∧ (∀ b : String, ¬(b = "\"2012-10-17\"" ∨ b = "\"2008-10-17\"") →
        PolicyVersion.unmarshalJSON b = .error b ∧
        ∀ e : InvalidPolicyVersionError,
          PolicyVersion.unmarshalJSON b = .error e → e.version = b)
    ∧ LoadPolicy "\x7b\"Version\":\"2009-10-17\",\"Statement\":[]\x7d"
        = .error (.versionErr "\"2009-10-17\"")
    ∧ (∃ p, LoadPolicy "\x7b\"Version\":\"2008-10-17\",\"Statement\":[]\x7d" = .ok p)
    ∧ (∃ p, LoadPolicy "\x7b\"Version\":\"2012-10-17\",\"Statement\":[]\x7d" = .ok p) := by
  refine ⟨?_, ?_, by rfl, ⟨_, rfl⟩, ⟨_, rfl⟩⟩
  · intro b
    unfold PolicyVersion.unmarshalJSON
    split_ifs with h
    · simp [h]
    · simp [h]
  · intro b h
    unfold PolicyVersion.unmarshalJSON
    rw [if_neg h]
    exact ⟨rfl, fun e he => by cases he; rfl⟩

theorem claim_C4_version_validation_witness :
    PolicyVersion.unmarshalJSON "\"2009-10-17\"" = .error "\"2009-10-17\"" :=
  (claim_C4_version_validation.2.1 "\"2009-10-17\"" (by decide)).1

/-- C5: the version field encodes unconditionally to "2012-10-17"; the
legacy "2008-10-17" decodes successfully, the decoded state carries no
trace of which literal was read (PolicyVersion is an empty struct), and a
document read with the legacy version re-encodes to the current literal. -/
theorem claim_C5_version_normalization :
    (∀ ver : PolicyVersion, PolicyVersion.marshalJSON ver = "\"2012-10-17\"")
    ∧ PolicyVersion.unmarshalJSON "\"2008-10-17\"" = .ok ()
    ∧ (∀ v1 v2 : PolicyVersion, v1 = v2)
    ∧ (∃ p, LoadPolicy "\x7b\"Version\":\"2008-10-17\",\"Statement\":[]\x7d" = .ok p ∧
        p.get = "\x7b\"Version\":\"2012-10-17\",\"Statement\":[]\x7d") :=
  ⟨fun _ => rfl, rfl, fun _ _ => rfl, ⟨_, rfl, rfl⟩⟩

/-- C6: the effect encodes Allow to "Allow" and Deny to "Deny"; decoding
maps those two literals back and any other literal fails with an
InvalidEffectError carrying the offending raw value. -/
theorem claim_C6_effect_mapping :
    Effect.marshalJSON Allow = "\"Allow\"" ∧ Effect.marshalJSON Deny = "\"Deny\""
    ∧ Effect.unmarshalJSON "\"Allow\"" = .ok Allow
    ∧ Effect.unmarshalJSON "\"Deny\"" = .ok Deny
    ∧ (∀ b : String, ¬(b = "\"Allow\"" ∨ b = "\"Deny\"") →
        Effect.unmarshalJSON b = .error b) := by
  refine ⟨rfl, rfl, rfl, rfl, ?_⟩
  intro b h
  unfold Effect.unmarshalJSON
  rw [if_neg (fun h1 => h (Or.inl h1)), if_neg (fun h2 => h (Or.inr h2))]

theorem claim_C6_effect_mapping_witness :
    Effect.unmarshalJSON "\"allow\"" = .error "\"allow\"" :=
  claim_C6_effect_mapping.2.2.2.2 "\"allow\"" (by decide)

/-- C7: encoding a policy with exactly one statement added via AddStatement
and never mutated yields exactly these bytes: Deny default effect, empty
principal and action collections present, empty resource string, and no
Sid, NotPrincipal, NotAction or Condition keys. -/
theorem claim_C7_empty_statement_bytes :
    Policy.get NewPolicy.addStatement =
      "\x7b\"Version\":\"2012-10-17\",\"Statement\":[\x7b\"Effect\":\"Deny\",\"Principal\":\x7b\"AWS\":[]\x7d,\"Action\":[],\"Resource\":\"\"\x7d]\x7d" := by
  rfl

/-- C9: AddNotPrincipal("*") on a freshly added, otherwise untouched
statement makes NotPrincipal appear (lazily allocated on first call) while
Principal stays an empty collection and no other field of the encoding
changes: the mutated and the fresh statement encode to the two byte strings
below, which differ only in the inserted NotPrincipal member. -/
theorem claim_C9_not_principal_frame :
    Policy.get ⟨none, some [newStatement.addNotPrincipal "*"]⟩ =
      "\x7b\"Version\":\"2012-10-17\",\"Statement\":[\x7b\"Effect\":\"Deny\",\"Principal\":\x7b\"AWS\":[]\x7d,\"NotPrincipal\":\x7b\"AWS\":[\"*\"]\x7d,\"Action\":[],\"Resource\":\"\"\x7d]\x7d"
    ∧ Policy.get ⟨none, some [newStatement]⟩ =
      "\x7b\"Version\":\"2012-10-17\",\"Statement\":[\x7b\"Effect\":\"Deny\",\"Principal\":\x7b\"AWS\":[]\x7d,\"Action\":[],\"Resource\":\"\"\x7d]\x7d"
    ∧ (∀ (s : Statement) (v : String), s.notPrincipal = none →
        (s.addNotPrincipal v).notPrincipal = some ⟨some [v]⟩)
    ∧ (∀ (s : Statement) (v : String),
        (s.addNotPrincipal v).sid = s.sid ∧ (s.addNotPrincipal v).effect = s.effect ∧
        (s.addNotPrincipal v).principal = s.principal ∧
        (s.addNotPrincipal v).action = s.action ∧
        (s.addNotPrincipal v).notAction = s.notAction ∧
        (s.addNotPrincipal v).resource = s.resource ∧
        (s.addNotPrincipal v).condition = s.condition) := by
  refine ⟨rfl, rfl, ?_, ?_⟩
  · intro s v h
    simp [Statement.addNotPrincipal, h, NewPrincipal]
  · intro s v
    exact ⟨rfl, rfl, rfl, rfl, rfl, rfl, rfl⟩

theorem claim_C9_not_principal_frame_witness :
    (newStatement.addNotPrincipal "*").notPrincipal = some ⟨some ["*"]⟩ :=
  claim_C9_not_principal_frame.2.2.1 newStatement "*" rfl

/-- C2 counterexample: a Statement decoded by LoadPolicy from input whose
statement carried no condition mapping has a nil condition map, and
AddCondition on it does not complete (Go panics assigning to an entry in a
nil map; the model returns none). -/
theorem claim_C2_counterexample :
    (LoadPolicy "\x7b\"Version\":\"2012-10-17\",\"Statement\":[\x7b\x7d]\x7d").map
        (fun p => (p.statement.getD []).map
          (Statement.addCondition "ArnEquals" "aws:SourceArn" "arn:sns:foo"))
      = .ok [none] := by
  rfl

/-- C2 (amended): AddCondition(operator, variable, value) completes and
appends value into condition[operator][variable], creating the operator and
variable levels on demand, for every statement whose condition map is
allocated and whose operator slot does not hold a nil inner map — in
particular for every statement created by AddStatement; a statement decoded
from input without a condition mapping fails instead. -/
theorem claim_C2_add_condition (s : Statement) (m : Cond) (t k v : String)
    (hm : s.condition = some m) (hi : sfind t m ≠ some none) :
    ∃ s', s.addCondition t k v = some s' ∧
      condValues s' t k = condValues s t k ++ [v] := by
  obtain ⟨s', m', heq, _, happ, _⟩ := addCondition_result s m t k v hm hi
  exact ⟨s', heq, happ⟩

theorem claim_C2_add_condition_witness :
    ∃ s', newStatement.addCondition "ArnEquals" "aws:SourceArn" "arn:sns:foo" = some s' ∧
      condValues s' "ArnEquals" "aws:SourceArn"
        = condValues newStatement "ArnEquals" "aws:SourceArn" ++ ["arn:sns:foo"] :=
  claim_C2_add_condition newStatement [] "ArnEquals" "aws:SourceArn" "arn:sns:foo"
    rfl (by simp [sfind])

/-- C8 counterexample: on a Statement whose condition map is nil (here
decoded from a statement whose Condition field was null), successive
AddCondition calls do not accumulate values: the first call already fails
(Go panics on the nil map write). -/
theorem claim_C8_counterexample :
    (LoadPolicy "\x7b\"Version\":\"2012-10-17\",\"Statement\":[\x7b\"Condition\":null\x7d]\x7d").map
        (fun p => (p.statement.getD []).map
          (fun s => (s.addCondition "ArnEquals" "aws:SourceArn" "arn:sns:foo").bind
            (Statement.addCondition "ArnEquals" "aws:SourceArn" "arn:sqs:bar")))
      = .ok [none] := by
  rfl

/-- C8 (amended): for every statement whose condition map is allocated and
whose operator slot does not hold a nil inner map (in particular every
statement created by AddStatement), successive AddCondition calls with the
same operator and variable accumulate their values in order, appending to
the same array rather than replacing it and without deduplicating (v1 and
v2 are arbitrary and may be equal). -/
theorem claim_C8_accumulation (s : Statement) (m : Cond) (t k v1 v2 : String)
    (hm : s.condition = some m) (hi : sfind t m ≠ some none) :
    ∃ s1 s2, s.addCondition t k v1 = some s1 ∧ s1.addCondition t k v2 = some s2 ∧
      condValues s2 t k = condValues s t k ++ [v1, v2] := by
  obtain ⟨s1, m1, heq1, hm1, happ1, _, hnil1, _⟩ := addCondition_result s m t k v1 hm hi
  have hi1 : sfind t m1 ≠ some none := fun h => hi (hnil1 t h)
  obtain ⟨s2, m2, heq2, hm2, happ2, _⟩ := addCondition_result s1 m1 t k v2 hm1 hi1
  refine ⟨s1, s2, heq1, heq2, ?_⟩
  rw [happ2, happ1, List.append_assoc]
  rfl

theorem claim_C8_accumulation_witness :
    ∃ s1 s2, newStatement.addCondition "ArnEquals" "aws:SourceArn" "dup" = some s1 ∧
      s1.addCondition "ArnEquals" "aws:SourceArn" "dup" = some s2 ∧
      condValues s2 "ArnEquals" "aws:SourceArn"
        = condValues newStatement "ArnEquals" "aws:SourceArn" ++ ["dup", "dup"] :=
  claim_C8_accumulation newStatement [] "ArnEquals" "aws:SourceArn" "dup" "dup"
    rfl (by simp [sfind])

/-- C3 counterexample: a policy decoded from input whose statement lacks
the Principal and Action fields re-encodes them as null, not as empty
collections — the keys are present but their values are JSON null. -/
theorem claim_C3_counterexample :
    (LoadPolicy "\x7b\"Version\":\"2012-10-17\",\"Statement\":[\x7b\"Sid\":\"s1\"\x7d]\x7d").map
        (fun p => (p.statement.getD []).map
          (fun s => (sfind "Principal" (objFields s.toJson),
                     sfind "Action" (objFields s.toJson))))
      = .ok [(some Json.null, some Json.null)] := by
  rfl

/-- C3 (amended): in the encoding of every statement the Principal and
Action keys are always present (never omitted), in contrast to the
optional fields — Id at the policy level, and Sid, NotPrincipal, NotAction
and Condition at the statement level — which appear exactly when set or
populated; for statements built via AddStatement and the mutators the
Principal and Action values are collections (never null), but a statement
decoded from input that lacked those fields serializes them as null. -/
theorem claim_C3_field_presence :
    (∀ p : Policy, sfind "Id" (objFields p.toJson) ≠ none ↔ p.id ≠ none)
    ∧ ∀ s : Statement,
    (∃ v, sfind "Principal" (objFields s.toJson) = some v)
    ∧ (∃ v, sfind "Action" (objFields s.toJson) = some v)
    ∧ (sfind "Sid" (objFields s.toJson) ≠ none ↔ s.sid ≠ none)
    ∧ (sfind "NotPrincipal" (objFields s.toJson) ≠ none ↔ s.notPrincipal ≠ none)
    ∧ (sfind "NotAction" (objFields s.toJson) ≠ none ↔ s.notAction ≠ [])
    ∧ (sfind "Condition" (objFields s.toJson) ≠ none ↔
        (s.condition ≠ none ∧ s.condition ≠ some []))
    ∧ (BuiltS s →
        sfind "Principal" (objFields s.toJson) ≠ some Json.null ∧
        sfind "Action" (objFields s.toJson) ≠ some Json.null) := by
  constructor
  · intro p
    obtain ⟨pid, st⟩ := p
    rcases pid with _ | i <;> simp [Policy.toJson, objFields, sfind]
  intro s
  obtain ⟨sid, eff, pr, np, ac, na, res, cond⟩ := s
  refine ⟨?_, ?_, ?_, ?_, ?_, ?_, ?_⟩
  · rcases sid with _ | v <;> exact ⟨_, rfl⟩
  · rcases sid with _ | v <;> rcases np with _ | pr2 <;> exact ⟨_, rfl⟩
  · rcases sid with _ | v <;> rcases np with _ | pr2 <;> rcases na with _ | ⟨na0, nat⟩ <;>
      rcases cond with _ | ⟨_ | ⟨m0, mt⟩⟩ <;>
      simp [Statement.toJson, objFields, sfind]
  · rcases sid with _ | v <;> rcases np with _ | pr2 <;> rcases na with _ | ⟨na0, nat⟩ <;>
      rcases cond with _ | ⟨_ | ⟨m0, mt⟩⟩ <;>
      simp [Statement.toJson, objFields, sfind]
  · rcases sid with _ | v <;> rcases np with _ | pr2 <;> rcases na with _ | ⟨na0, nat⟩ <;>
      rcases cond with _ | ⟨_ | ⟨m0, mt⟩⟩ <;>
      simp [Statement.toJson, objFields, sfind]
  · rcases sid with _ | v <;> rcases np with _ | pr2 <;> rcases na with _ | ⟨na0, nat⟩ <;>
      rcases cond with _ | ⟨_ | ⟨m0, mt⟩⟩ <;>
      simp [Statement.toJson, objFields, sfind]
  · intro hb
    obtain ⟨⟨pl, hpr⟩, ⟨al, hac⟩, _, _⟩ := builtS_stmtOK hb
    simp only at hpr hac
    subst hpr hac
    rcases sid with _ | v <;> rcases np with _ | pr2 <;>
      simp [Statement.toJson, objFields, sfind, Principal.toJson]

theorem claim_C3_field_presence_witness :
    sfind "Id" (objFields (Policy.setId "policy-id" NewPolicy).toJson) ≠ none ∧
    sfind "Principal" (objFields newStatement.toJson) ≠ some Json.null ∧
    sfind "Action" (objFields newStatement.toJson) ≠ some Json.null :=
  ⟨(claim_C3_field_presence.1 (Policy.setId "policy-id" NewPolicy)).2 (by decide),
   (claim_C3_field_presence.2 newStatement).2.2.2.2.2.2 BuiltS.new⟩

theorem condOK_no_nil {m : Cond} (hok : CondOK m) (t : String) :
    sfind t m ≠ some none := by
  intro h
  obtain ⟨im, him, _⟩ := hok.2 (t, none) (sfind_mem h)
  simp at him

theorem runConds_aux (ops : List (String × String × String)) :
    ∀ (s0 : Statement) (m0 : Cond), s0.condition = some m0 → CondOK m0 →
      ∃ s m, ops.foldlM (fun st o => st.addCondition o.1 o.2.1 o.2.2) s0 = some s ∧
        s.condition = some m ∧ CondOK m ∧
        ∀ t k, condValues s t k =
          condValues s0 t k ++ (ops.filter fun o => o.1 = t ∧ o.2.1 = k).map (fun o => o.2.2) := by
  induction ops with
  | nil =>
      intro s0 m0 hm hok
      exact ⟨s0, m0, rfl, hm, hok, fun t k => by simp⟩
  | cons o t ih =>
      intro s0 m0 hm hok
      obtain ⟨s1, m1, heq1, hm1, happ1, hframe1, _, hok1, _⟩ :=
        addCondition_result s0 m0 o.1 o.2.1 o.2.2 hm (condOK_no_nil hok o.1)
      obtain ⟨s, m, heq, hmm, hokm, hvals⟩ := ih s1 m1 hm1 (hok1 hok)
      refine ⟨s, m, ?_, hmm, hokm, ?_⟩
      · simp [List.foldlM_cons, heq1, heq]
      · intro tk k
        rw [hvals tk k]
        by_cases hmatch : o.1 = tk ∧ o.2.1 = k
        · obtain ⟨h1, h2⟩ := hmatch
          subst h1 h2
          rw [happ1]
          simp [List.filter_cons]
        · rw [hframe1 tk k fun ⟨h1, h2⟩ => hmatch ⟨h1.symm, h2.symm⟩]
          have : (o :: t).filter (fun o => o.1 = tk ∧ o.2.1 = k)
              = t.filter (fun o => o.1 = tk ∧ o.2.1 = k) := by
            simp [List.filter_cons, hmatch]
          rw [this]

theorem sfind_cond_toJson (s : Statement) (m0 : String × Option CondInner)
    (mt : Cond) (hm : s.condition = some (m0 :: mt)) :
    sfind "Condition" (objFields s.toJson) = some (condToJson (m0 :: mt)) := by
  obtain ⟨sid, eff, pr, np, ac, na, res, cond⟩ := s
  simp only at hm
  subst hm
  rcases sid with _ | v <;> rcases np with _ | pr2 <;> rcases na with _ | ⟨na0, nat⟩ <;>
    simp [Statement.toJson, objFields, sfind]

/-- C10: after any sequence of AddCondition calls on a fresh statement, the
encoded condition object carries the operator keys — and within each
operator the variable keys — in strictly ascending (lexicographic byte)
order regardless of the order of the calls, while each innermost value list
holds exactly the values added for that operator/variable pair in call
order.  The encoding of a Go map emits its keys sorted, which on the
canonical sorted representation used here is emission in representation
order, so sortedness of the representation (the two Pairwise conjuncts) is
sortedness of the serialized keys. -/
theorem claim_C10_condition_key_order (ops : List (String × String × String)) :
    ∃ s m, runConds ops = some s ∧ s.condition = some m ∧
      m.Pairwise (fun a b => a.1 < b.1) ∧
      (∀ kv ∈ m, ∃ im, kv.2 = some im ∧ im.Pairwise (fun a b => a.1 < b.1)) ∧
      (∀ t k, condValues s t k =
        (ops.filter fun o => o.1 = t ∧ o.2.1 = k).map (fun o => o.2.2)) ∧
      (∀ m0 mt, m = m0 :: mt →
        sfind "Condition" (objFields s.toJson) = some (condToJson m)) := by
  obtain ⟨s, m, heq, hm, hok, hvals⟩ :=
    runConds_aux ops newStatement [] rfl ⟨List.Pairwise.nil, by simp⟩
  refine ⟨s, m, heq, hm, hok.1, hok.2, ?_, ?_⟩
  · intro t k
    have := hvals t k
    simpa [condValues, sfind] using this
  · intro m0 mt hmm
    subst hmm
    exact sfind_cond_toJson s m0 mt hm

/-- C1 counterexample: the round trip is not the identity field-for-field.
For the policy holding one freshly added statement, AddStatement allocates
an empty condition map, the encoding omits it (omitempty), and decoding
leaves the condition map nil — an observably different value (AddCondition
succeeds on the original and fails on the decoded statement). -/
theorem claim_C1_roundtrip_counterexample :
    BuiltP NewPolicy.addStatement ∧
    LoadPolicy (Policy.get NewPolicy.addStatement) ≠ .ok NewPolicy.addStatement := by
  constructor
  · refine ⟨[newStatement], rfl, ?_⟩
    intro s hs
    rw [List.mem_singleton] at hs
    subst hs
    exact BuiltS.new
  · intro hc
    have h1 : LoadPolicy (Policy.get NewPolicy.addStatement)
        = .ok ⟨none, some [⟨none, false, some ⟨some []⟩, none, some [], [], "", none⟩]⟩ := rfl
    rw [h1] at hc
    simp [NewPolicy, Policy.addStatement, newStatement, NewPrincipal] at hc

/-- C1 (amended): decoding the bytes produced by Get of a policy built from
NewPolicy via SetId, AddStatement and the Statement mutators yields the
policy unchanged field-for-field, except that each statement whose
condition map is allocated but empty comes back with the condition map
absent (nil) — and with the stated legacy-version collapse, which is
invisible in the model since the version stores nothing. -/
theorem claim_C1_roundtrip (p : Policy) (h : BuiltP p) :
    LoadPolicy p.get = .ok (collapseP p) :=
  loadPolicy_get p h

theorem claim_C1_roundtrip_witness :
    LoadPolicy (Policy.get ⟨some "policy-id",
        some [(newStatement.addCondition "ArnEquals" "aws:SourceArn" "arn:sns:foo").getD
          newStatement]⟩)
      = .ok (collapseP ⟨some "policy-id",
        some [(newStatement.addCondition "ArnEquals" "aws:SourceArn" "arn:sns:foo").getD
          newStatement]⟩) :=
  claim_C1_roundtrip _ ⟨_, rfl, fun s hs => by
    rw [List.mem_singleton] at hs
    subst hs
    exact BuiltS.addCondition BuiltS.new rfl⟩

theorem claim_C10_condition_key_order_witness :
    ∃ s m, runConds [("StringEquals", "aws:username", "a"), ("ArnEquals", "aws:SourceArn", "b")]
        = some s ∧
      s.condition = some m ∧ m.Pairwise (fun a b => a.1 < b.1) ∧
      condValues s "ArnEquals" "aws:SourceArn" = ["b"] := by
  obtain ⟨s, m, h1, h2, h3, _, h5, _⟩ := claim_C10_condition_key_order
    [("StringEquals", "aws:username", "a"), ("ArnEquals", "aws:SourceArn", "b")]
  refine ⟨s, m, h1, h2, h3, ?_⟩
  rw [h5 "ArnEquals" "aws:SourceArn"]
  rfl

end Goiam
